import Mathlib

set_option linter.unusedSectionVars false
set_option linter.unusedVariables false

/-
Shallow embedding of the easycache eviction-policy engines (src/strategy/lru.rs,
src/strategy/fifo.rs, src/strategy/lfu.rs) and of the standalone LRU cache in
src/lru_cache.rs, together with theorems settling the frozen claims about them.

Modelling conventions:
 - `Instant` (chrono DateTime) and `Duration` are modelled as `Nat`; every
   operation that calls `Utc::now()` in Rust takes the current time `now : Nat`
   as an explicit argument.
 - `HashMap<K, Entry>` is an association list `List (K × Entry)`;
   `VecDeque<K>` is a `List K` whose head is the deque front;
   `HashSet<K>` is a `List K`; `BTreeMap<usize, HashSet<K>>` is a
   `List (Nat × List K)` kept sorted by ascending frequency by its operations.
   The arbitrary `HashSet` iteration order of the Rust source is determinised
   as insertion order (new elements appended at the back, `iter().next()` takes
   the head).
 - The `Mutex` locking is invisible to a sequential model: each public
   operation is one atomic state transformation, which matches the source,
   where every operation holds all the locks it needs for its whole body.
-/

/-- Entry stored by the LRU and FIFO engines: a value plus its absolute expiry
instant (`CacheEntry` in lru.rs / fifo.rs / lru_cache.rs). -/
structure CacheEntry (V : Type) where
  value : V
  expires_at : Nat
deriving DecidableEq, Repr

/-- Entry stored by the LFU engine: value, absolute expiry instant and the
visit-frequency counter (`CacheEntry` in lfu.rs). -/
structure LFUEntry (V : Type) where
  value : V
  expires_at : Nat
  frequency : Nat
deriving DecidableEq, Repr

section MapHelpers

variable {K : Type} {E : Type} [DecidableEq K]

/-- Lookup in the association-list model of `HashMap` (Rust `map.get`). -/
def mapGet (m : List (K × E)) (k : K) : Option E :=
  match m with
  | [] => none
  | (k', e) :: rest => if k' = k then some e else mapGet rest k

/-- Key-membership test (Rust `map.contains_key`). -/
def mapContains (m : List (K × E)) (k : K) : Bool :=
  match m with
  | [] => false
  | (k', _) :: rest => if k' = k then true else mapContains rest k

/-- Update the entry of the first binding of `k` in place
(Rust `map.get_mut` followed by field assignments). -/
def mapUpdate (m : List (K × E)) (k : K) (f : E → E) : List (K × E) :=
  match m with
  | [] => []
  | (k', e) :: rest =>
    if k' = k then (k', f e) :: rest else (k', e) :: mapUpdate rest k f

/-- Insert-or-overwrite (Rust `map.insert`): overwrite the binding when the
key is present, append a fresh binding otherwise. -/
def mapInsert (m : List (K × E)) (k : K) (e : E) : List (K × E) :=
  if mapContains m k then mapUpdate m k (fun _ => e) else m ++ [(k, e)]

/-- Remove every binding of `k` (Rust `map.remove`; a `HashMap` holds at most
one binding per key, so on well-formed states this removes exactly it). -/
def mapRemove (m : List (K × E)) (k : K) : List (K × E) :=
  match m with
  | [] => []
  | (k', e) :: rest =>
    if k' = k then mapRemove rest k else (k', e) :: mapRemove rest k

/-- Key list of the store, in binding order. -/
def mapKeys (m : List (K × E)) : List K :=
  m.map Prod.fst

end MapHelpers

/-- State of the LRU strategy engine (`LRUCache` in src/strategy/lru.rs and,
with the same fields, the standalone `LRUCache` in src/lru_cache.rs): fixed
capacity and ttl, the store `map`, and the recency deque `order` whose head is
the most-recently-used key. -/
structure LRUCacheState (K V : Type) where
  capacity : Nat
  ttl : Nat
  map : List (K × CacheEntry V)
  order : List K
deriving Repr

section LRUDefs

variable {K V : Type} [DecidableEq K]

/-- LRUCache::put (src/strategy/lru.rs lines 53-75): drop the key's old order
position if present, evict the order-sequence tail if still at capacity, then
insert the entry with `expires_at = now + ttl` and push the key to the front. -/
def LRU.put (s : LRUCacheState K V) (now : Nat) (k : K) (v : V) : LRUCacheState K V :=
  let order0 := if mapContains s.map k then s.order.filter (fun x => x ≠ k) else s.order
  let md :=
    if s.capacity ≤ order0.length then
      match order0.getLast? with
      | some oldest => (mapRemove s.map oldest, order0.dropLast)
      | none => (s.map, order0)
    else (s.map, order0)
  { s with map := mapInsert md.1 k ⟨v, now + s.ttl⟩, order := k :: md.2 }

/-- LRUCache::get (src/strategy/lru.rs lines 77-93): a live hit moves the key
to the front and returns the value without touching `expires_at`; an expired
hit removes the key from both store and order; a miss changes nothing. -/
def LRU.get (s : LRUCacheState K V) (now : Nat) (k : K) :
    Option V × LRUCacheState K V :=
  match mapGet s.map k with
  | some e =>
    if now < e.expires_at then
      (some e.value, { s with order := k :: s.order.filter (fun x => x ≠ k) })
    else
      (none, { s with map := mapRemove s.map k,
                      order := s.order.filter (fun x => x ≠ k) })
  | none => (none, s)

/-- LRUCache::remove (src/strategy/lru.rs lines 95-100). -/
def LRU.remove (s : LRUCacheState K V) (k : K) : LRUCacheState K V :=
  { s with map := mapRemove s.map k, order := s.order.filter (fun x => x ≠ k) }

/-- LRUCache::contains (src/strategy/lru.rs lines 102-105): reads the store
under its lock and nothing else, so the embedding is a pure observer. -/
def LRU.contains (s : LRUCacheState K V) (k : K) : Bool :=
  mapContains s.map k

/-- LRUCache::len (src/strategy/lru.rs lines 107-110). -/
def LRU.len (s : LRUCacheState K V) : Nat :=
  s.map.length

/-- LRUCache::clear (src/strategy/lru.rs lines 115-120). -/
def LRU.clear (s : LRUCacheState K V) : LRUCacheState K V :=
  { s with map := [], order := [] }

/-- One tick of the LRU cleaner (src/strategy/lru.rs lines 122-154):
`order.retain` keeps a key iff its entry exists and is live, removing dead
entries from the store as it walks the deque front to back. -/
def LRU.sweep (s : LRUCacheState K V) (now : Nat) : LRUCacheState K V :=
  let step := fun (acc : List (K × CacheEntry V) × List K) (k : K) =>
    match mapGet acc.1 k with
    | some e =>
      if now < e.expires_at then (acc.1, acc.2 ++ [k])
      else (mapRemove acc.1 k, acc.2)
    | none => acc
  let r := s.order.foldl step (s.map, [])
  { s with map := r.1, order := r.2 }

/-- The get of the standalone LRUCache in src/lru_cache.rs (lines 104-121):
identical to the strategy engine's get except that a live hit also refreshes
`expires_at = now + ttl` (sliding TTL). -/
def LruCacheFile.get (s : LRUCacheState K V) (now : Nat) (k : K) :
    Option V × LRUCacheState K V :=
  match mapGet s.map k with
  | some e =>
    if now < e.expires_at then
      (some e.value,
       { s with map := mapUpdate s.map k (fun e0 => ⟨e0.value, now + s.ttl⟩),
                order := k :: s.order.filter (fun x => x ≠ k) })
    else
      (none, { s with map := mapRemove s.map k,
                      order := s.order.filter (fun x => x ≠ k) })
  | none => (none, s)

end LRUDefs

/-- State of the FIFO strategy engine (`FIFOCache` in src/strategy/fifo.rs):
capacity, ttl, the store `map`, and the insertion-order deque `order` whose
head is the oldest-inserted key (Rust pushes new keys at the back and pops the
victim from the front). -/
structure FIFOCacheState (K V : Type) where
  capacity : Nat
  ttl : Nat
  map : List (K × CacheEntry V)
  order : List K
deriving Repr

section FIFODefs

variable {K V : Type} [DecidableEq K]

/-- FIFOCache::put (src/strategy/fifo.rs lines 53-75): an early return makes a
put on a present key a no-op; otherwise the front (oldest) key is evicted when
at capacity and the new entry is appended at the back. -/
def FIFO.put (s : FIFOCacheState K V) (now : Nat) (k : K) (v : V) : FIFOCacheState K V :=
  if mapContains s.map k then s
  else
    let md :=
      if s.capacity ≤ s.order.length then
        match s.order with
        | oldest :: rest => (mapRemove s.map oldest, rest)
        | [] => (s.map, s.order)
      else (s.map, s.order)
    { s with map := mapInsert md.1 k ⟨v, now + s.ttl⟩, order := md.2 ++ [k] }

/-- FIFOCache::get (src/strategy/fifo.rs lines 77-91): a live hit returns the
value and changes nothing; an expired hit removes the key from both store and
order; a miss changes nothing. -/
def FIFO.get (s : FIFOCacheState K V) (now : Nat) (k : K) :
    Option V × FIFOCacheState K V :=
  match mapGet s.map k with
  | some e =>
    if now < e.expires_at then (some e.value, s)
    else
      (none, { s with map := mapRemove s.map k,
                      order := s.order.filter (fun x => x ≠ k) })
  | none => (none, s)

/-- FIFOCache::remove (src/strategy/fifo.rs lines 93-98). -/
def FIFO.remove (s : FIFOCacheState K V) (k : K) : FIFOCacheState K V :=
  { s with map := mapRemove s.map k, order := s.order.filter (fun x => x ≠ k) }

/-- FIFOCache::contains (src/strategy/fifo.rs lines 100-103): reads the store
under its lock and nothing else, so the embedding is a pure observer. -/
def FIFO.contains (s : FIFOCacheState K V) (k : K) : Bool :=
  mapContains s.map k

/-- FIFOCache::len (src/strategy/fifo.rs lines 105-108). -/
def FIFO.len (s : FIFOCacheState K V) : Nat :=
  s.map.length

/-- FIFOCache::clear (src/strategy/fifo.rs lines 113-118). -/
def FIFO.clear (s : FIFOCacheState K V) : FIFOCacheState K V :=
  { s with map := [], order := [] }

/-- One tick of the FIFO cleaner (src/strategy/fifo.rs lines 120-145):
`order.retain` keeps keys whose entry exists and is live (the store is
unchanged while it runs), then `map.retain` keeps the live entries. -/
def FIFO.sweep (s : FIFOCacheState K V) (now : Nat) : FIFOCacheState K V :=
  { s with
    order := s.order.filter (fun k =>
      match mapGet s.map k with
      | some e => decide (now < e.expires_at)
      | none => false),
    map := s.map.filter (fun p => now < p.2.expires_at) }

end FIFODefs

/-- State of the LFU strategy engine (`LFUCache` in src/strategy/lfu.rs):
capacity, ttl, the store `map`, and the frequency index `freq_map`, a
`BTreeMap` from frequency to the set of keys at that frequency, modelled as an
ascending-by-frequency list of nonempty buckets. -/
structure LFUCacheState (K V : Type) where
  capacity : Nat
  ttl : Nat
  map : List (K × LFUEntry V)
  freq_map : List (Nat × List K)
deriving Repr

section FreqMapHelpers

variable {K : Type} [DecidableEq K]

/-- Rust `freq_map.entry(f).or_insert_with(HashSet::new).insert(k)`: add `k`
to the bucket of frequency `f`, creating the bucket at its sorted position if
missing, and leaving the bucket unchanged when `k` is already in it. -/
def fmInsert (fm : List (Nat × List K)) (f : Nat) (k : K) : List (Nat × List K) :=
  match fm with
  | [] => [(f, [k])]
  | (g, ks) :: rest =>
    if f = g then (g, if k ∈ ks then ks else ks ++ [k]) :: rest
    else if f < g then (f, [k]) :: (g, ks) :: rest
    else (g, ks) :: fmInsert rest f k

/-- Rust `freq_map.get_mut(&f)` followed by `set.remove(&k)` and dropping the
bucket when it becomes empty: remove `k` from the bucket of frequency `f`. -/
def fmRemoveKey (fm : List (Nat × List K)) (f : Nat) (k : K) : List (Nat × List K) :=
  match fm with
  | [] => []
  | (g, ks) :: rest =>
    if f = g then
      let ks2 := ks.filter (fun x => x ≠ k)
      if ks2.isEmpty then rest else (g, ks2) :: rest
    else (g, ks) :: fmRemoveKey rest f k

/-- Bucket of frequency `f` (Rust `freq_map.get(&f)`, empty set when absent). -/
def fmBucket (fm : List (Nat × List K)) (f : Nat) : List K :=
  match fm with
  | [] => []
  | (g, ks) :: rest => if g = f then ks else fmBucket rest f

/-- All keys represented anywhere in the frequency index, in index order. -/
def fmKeys (fm : List (Nat × List K)) : List K :=
  (fm.map Prod.snd).flatten

end FreqMapHelpers

section LFUDefs

variable {K V : Type} [DecidableEq K]

/-- LFUCache::put (src/strategy/lfu.rs lines 90-119): a put on a present key
overwrites the value and refreshes `expires_at`, leaving frequency and the
frequency index untouched; a put on a new key first evicts, when at capacity,
the first key of the minimum-frequency bucket from both structures, then
inserts the entry with frequency 1 and adds the key to bucket 1. -/
def LFU.put (s : LFUCacheState K V) (now : Nat) (k : K) (v : V) : LFUCacheState K V :=
  match mapGet s.map k with
  | some _ =>
    { s with map := mapUpdate s.map k (fun e0 => ⟨v, now + s.ttl, e0.frequency⟩) }
  | none =>
    let s1 :=
      if s.capacity ≤ s.map.length then
        match s.freq_map with
        | (minf, ks) :: _ =>
          match ks.head? with
          | some k0 =>
            { s with map := mapRemove s.map k0,
                     freq_map := fmRemoveKey s.freq_map minf k0 }
          | none => s
        | [] => s
      else s
    { s1 with map := mapInsert s1.map k ⟨v, now + s1.ttl, 1⟩,
              freq_map := fmInsert s1.freq_map 1 k }

/-- LFUCache::get (src/strategy/lfu.rs lines 121-157): an expired hit removes
the key from the store and from its frequency bucket; a live hit increments
the entry's frequency, moves the key from the old bucket to the new one, and
returns the value (no TTL refresh). A miss changes nothing. -/
def LFU.get (s : LFUCacheState K V) (now : Nat) (k : K) :
    Option V × LFUCacheState K V :=
  match mapGet s.map k with
  | some e =>
    if e.expires_at ≤ now then
      (none, { s with map := mapRemove s.map k,
                      freq_map := fmRemoveKey s.freq_map e.frequency k })
    else
      (some e.value,
       { s with
          map := mapUpdate s.map k (fun e0 => ⟨e0.value, e0.expires_at, e0.frequency + 1⟩),
          freq_map := fmInsert (fmRemoveKey s.freq_map e.frequency k) (e.frequency + 1) k })
  | none => (none, s)

/-- LFUCache::remove (src/strategy/lfu.rs lines 159-171). -/
def LFU.remove (s : LFUCacheState K V) (k : K) : LFUCacheState K V :=
  match mapGet s.map k with
  | some e =>
    { s with map := mapRemove s.map k,
             freq_map := fmRemoveKey s.freq_map e.frequency k }
  | none => s

/-- LFUCache::contains (src/strategy/lfu.rs lines 173-176): reads the store
under its lock and nothing else, so the embedding is a pure observer. -/
def LFU.contains (s : LFUCacheState K V) (k : K) : Bool :=
  mapContains s.map k

/-- LFUCache::len (src/strategy/lfu.rs lines 178-181). -/
def LFU.len (s : LFUCacheState K V) : Nat :=
  s.map.length

/-- LFUCache::clear (src/strategy/lfu.rs lines 186-191). -/
def LFU.clear (s : LFUCacheState K V) : LFUCacheState K V :=
  { s with map := [], freq_map := [] }

/-- One tick of the cleaner spawned by LFUCache::start_cleaner
(src/strategy/lfu.rs lines 193-212): `map.retain` keeps the live entries and
nothing touches `freq_map`. This is the trait-level cleaner, which the facade
Easycache::new schedules for every policy right after construction. -/
def LFU.sweepTrait (s : LFUCacheState K V) (now : Nat) : LFUCacheState K V :=
  { s with map := s.map.filter (fun p => now < p.2.expires_at) }

/-- One tick of the cleaner spawned inside LFUCache::new
(src/strategy/lfu.rs lines 48-79): collect the expired keys, then remove each
from the store and from its frequency bucket. -/
def LFU.sweepCtor (s : LFUCacheState K V) (now : Nat) : LFUCacheState K V :=
  let doomed := (s.map.filter (fun p => p.2.expires_at ≤ now)).map Prod.fst
  doomed.foldl
    (fun t k =>
      match mapGet t.map k with
      | some e =>
        { t with map := mapRemove t.map k,
                 freq_map := fmRemoveKey t.freq_map e.frequency k }
      | none => t) s

end LFUDefs

section MapLemmas

variable {K : Type} {E : Type} [DecidableEq K]

theorem mapGet_mapUpdate_self (m : List (K × E)) (k : K) (f : E → E) :
    mapGet (mapUpdate m k f) k = (mapGet m k).map f := by
  induction m with
  | nil => rfl
  | cons p rest ih =>
    obtain ⟨k', e⟩ := p
    by_cases h : k' = k
    · simp [mapUpdate, mapGet, h]
    · simp [mapUpdate, mapGet, h, ih]

theorem mapKeys_mapUpdate (m : List (K × E)) (k : K) (f : E → E) :
    mapKeys (mapUpdate m k f) = mapKeys m := by
  induction m with
  | nil => rfl
  | cons p rest ih =>
    obtain ⟨k', e⟩ := p
    by_cases h : k' = k
    · simp [mapUpdate, mapKeys, h]
    · simp only [mapUpdate, if_neg h]
      simpa [mapKeys] using ih

theorem length_mapUpdate (m : List (K × E)) (k : K) (f : E → E) :
    (mapUpdate m k f).length = m.length := by
  induction m with
  | nil => rfl
  | cons p rest ih =>
    obtain ⟨k', e⟩ := p
    by_cases h : k' = k
    · simp [mapUpdate, h]
    · simp [mapUpdate, h, ih]

theorem mapContains_eq_isSome (m : List (K × E)) (k : K) :
    mapContains m k = (mapGet m k).isSome := by
  induction m with
  | nil => rfl
  | cons p rest ih =>
    obtain ⟨k', e⟩ := p
    by_cases h : k' = k
    · simp [mapContains, mapGet, h]
    · simp [mapContains, mapGet, h, ih]

theorem mapGet_mapUpdate_ne (m : List (K × E)) (k k' : K) (f : E → E) (h : k' ≠ k) :
    mapGet (mapUpdate m k f) k' = mapGet m k' := by
  induction m with
  | nil => rfl
  | cons p rest ih =>
    obtain ⟨k0, e⟩ := p
    have hkk : ¬k = k' := fun hh => h hh.symm
    by_cases h0 : k0 = k
    · subst h0
      simp [mapUpdate, mapGet, hkk]
    · simp [mapUpdate, mapGet, h0, ih]

theorem mapGet_mapRemove_self (m : List (K × E)) (k : K) :
    mapGet (mapRemove m k) k = none := by
  induction m with
  | nil => rfl
  | cons p rest ih =>
    obtain ⟨k', e⟩ := p
    by_cases h : k' = k
    · simpa [mapRemove, h] using ih
    · simp [mapRemove, mapGet, h, ih]

theorem mapContains_mapRemove_self (m : List (K × E)) (k : K) :
    mapContains (mapRemove m k) k = false := by
  rw [mapContains_eq_isSome, mapGet_mapRemove_self]
  rfl

theorem mapGet_mapRemove_ne (m : List (K × E)) (k k' : K) (h : k' ≠ k) :
    mapGet (mapRemove m k) k' = mapGet m k' := by
  induction m with
  | nil => rfl
  | cons p rest ih =>
    obtain ⟨k0, e⟩ := p
    have hkk : ¬k = k' := fun hh => h hh.symm
    by_cases h0 : k0 = k
    · subst h0
      simp [mapRemove, mapGet, hkk, ih]
    · simp [mapRemove, mapGet, h0, ih]

theorem mapGet_append_single_ne (m : List (K × E)) (k k' : K) (e : E) (h : k' ≠ k) :
    mapGet (m ++ [(k, e)]) k' = mapGet m k' := by
  induction m with
  | nil =>
    have hkk : ¬k = k' := fun hh => h hh.symm
    simp [mapGet, hkk]
  | cons p rest ih =>
    obtain ⟨k0, e0⟩ := p
    simp only [List.cons_append, mapGet]
    rw [show rest.append [(k, e)] = rest ++ [(k, e)] from rfl, ih]

theorem mapGet_mapInsert_self (m : List (K × E)) (k : K) (e : E) :
    mapGet (mapInsert m k e) k = some e := by
  unfold mapInsert
  by_cases h : mapContains m k = true
  · rw [if_pos h, mapGet_mapUpdate_self]
    rw [mapContains_eq_isSome] at h
    obtain ⟨e0, he0⟩ := Option.isSome_iff_exists.mp h
    simp [he0]
  · rw [if_neg h]
    rw [mapContains_eq_isSome] at h
    have hnone : mapGet m k = none := by
      cases hg : mapGet m k with
      | none => rfl
      | some e0 => rw [hg] at h; simp at h
    clear h
    induction m with
    | nil => simp [mapGet]
    | cons p rest ih =>
      obtain ⟨k0, e0⟩ := p
      by_cases h0 : k0 = k
      · simp [mapGet, h0] at hnone
      · simp [mapGet, h0] at hnone ⊢
        exact ih hnone

theorem mapGet_mapInsert_ne (m : List (K × E)) (k k' : K) (e : E) (h : k' ≠ k) :
    mapGet (mapInsert m k e) k' = mapGet m k' := by
  unfold mapInsert
  by_cases hc : mapContains m k = true
  · rw [if_pos hc]
    exact mapGet_mapUpdate_ne m k k' _ h
  · rw [if_neg hc]
    exact mapGet_append_single_ne m k k' e h

theorem mapContains_mapInsert_self (m : List (K × E)) (k : K) (e : E) :
    mapContains (mapInsert m k e) k = true := by
  rw [mapContains_eq_isSome, mapGet_mapInsert_self]
  rfl

theorem mapContains_mapInsert_ne (m : List (K × E)) (k k' : K) (e : E) (h : k' ≠ k) :
    mapContains (mapInsert m k e) k' = mapContains m k' := by
  rw [mapContains_eq_isSome, mapContains_eq_isSome, mapGet_mapInsert_ne m k k' e h]

theorem length_mapRemove_le (m : List (K × E)) (k : K) :
    (mapRemove m k).length ≤ m.length := by
  induction m with
  | nil => exact Nat.le_refl 0
  | cons p rest ih =>
    obtain ⟨k0, e⟩ := p
    by_cases h0 : k0 = k
    · simp only [mapRemove, if_pos h0]
      exact Nat.le_succ_of_le ih
    · simp only [mapRemove, if_neg h0, List.length_cons]
      exact Nat.succ_le_succ ih

theorem length_mapRemove_lt (m : List (K × E)) (k : K) (e : E)
    (h : mapGet m k = some e) : (mapRemove m k).length < m.length := by
  induction m with
  | nil => simp [mapGet] at h
  | cons p rest ih =>
    obtain ⟨k0, e0⟩ := p
    by_cases h0 : k0 = k
    · simp only [mapRemove, if_pos h0, List.length_cons]
      exact Nat.lt_succ_of_le (length_mapRemove_le rest k)
    · simp only [mapGet, if_neg h0] at h
      simp only [mapRemove, if_neg h0, List.length_cons]
      exact Nat.succ_lt_succ (ih h)

end MapLemmas

section FreqMapLemmas

variable {K : Type} [DecidableEq K]

theorem mem_fmBucket_fmInsert_self (fm : List (Nat × List K)) (f : Nat) (k : K) :
    k ∈ fmBucket (fmInsert fm f k) f := by
  induction fm with
  | nil => simp [fmInsert, fmBucket]
  | cons p rest ih =>
    obtain ⟨g, ks⟩ := p
    by_cases h0 : f = g
    · subst h0
      by_cases hk : k ∈ ks
      · simp [fmInsert, fmBucket, hk]
      · simp [fmInsert, fmBucket, hk]
    · by_cases h1 : f < g
      · simp [fmInsert, fmBucket, h0, h1]
      · have hgf : ¬g = f := fun hh => h0 hh.symm
        simp [fmInsert, fmBucket, h0, h1, hgf, ih]

theorem fmBucket_fmInsert_ne (fm : List (Nat × List K)) (f f' : Nat) (k : K)
    (h : f' ≠ f) :
    fmBucket (fmInsert fm f k) f' = fmBucket fm f' := by
  have hff : ¬f = f' := fun hh => h hh.symm
  induction fm with
  | nil => simp [fmInsert, fmBucket, hff]
  | cons p rest ih =>
    obtain ⟨g, ks⟩ := p
    by_cases h0 : f = g
    · subst h0
      simp [fmInsert, fmBucket, hff]
    · by_cases h1 : f < g
      · simp [fmInsert, fmBucket, h0, h1, hff]
      · simp [fmInsert, fmBucket, h0, h1, ih]

theorem fmBucket_eq_nil_of_not_mem (fm : List (Nat × List K)) (f : Nat)
    (h : f ∉ fm.map Prod.fst) : fmBucket fm f = [] := by
  induction fm with
  | nil => rfl
  | cons p rest ih =>
    obtain ⟨g, ks⟩ := p
    simp only [List.map_cons, List.mem_cons] at h
    push_neg at h
    have hgf : ¬g = f := fun hh => h.1 hh.symm
    simp [fmBucket, hgf]
    exact ih h.2

theorem not_mem_fmBucket_fmRemoveKey_self (fm : List (Nat × List K)) (f : Nat) (k : K)
    (hnd : (fm.map Prod.fst).Nodup) :
    k ∉ fmBucket (fmRemoveKey fm f k) f := by
  induction fm with
  | nil => simp [fmRemoveKey, fmBucket]
  | cons p rest ih =>
    obtain ⟨g, ks⟩ := p
    simp only [List.map_cons, List.nodup_cons] at hnd
    by_cases h0 : f = g
    · subst h0
      have hunf : fmRemoveKey ((f, ks) :: rest) f k
          = if (ks.filter (fun x => x ≠ k)).isEmpty then rest
            else (f, ks.filter (fun x => x ≠ k)) :: rest := by
        show (if f = f then _ else _) = _
        rw [if_pos rfl]
      by_cases hemp : (ks.filter (fun x => x ≠ k)).isEmpty
      · rw [hunf, if_pos hemp, fmBucket_eq_nil_of_not_mem rest f hnd.1]
        simp
      · rw [hunf, if_neg hemp]
        simp [fmBucket]
    · have hgf : ¬g = f := fun hh => h0 hh.symm
      have hunf : fmRemoveKey ((g, ks) :: rest) f k = (g, ks) :: fmRemoveKey rest f k := by
        show (if f = g then _ else _) = _
        rw [if_neg h0]
      rw [hunf]
      simp [fmBucket, hgf]
      exact ih hnd.2

theorem mem_fmKeys_iff (fm : List (Nat × List K)) (k : K) :
    k ∈ fmKeys fm ↔ ∃ p ∈ fm, k ∈ p.2 := by
  unfold fmKeys
  simp only [List.mem_flatten, List.mem_map]
  constructor
  · rintro ⟨l, ⟨p, hp, rfl⟩, hk⟩
    exact ⟨p, hp, hk⟩
  · rintro ⟨p, hp, hk⟩
    exact ⟨p.2, ⟨p, hp, rfl⟩, hk⟩

theorem not_mem_fmKeys_fmRemoveKey (fm : List (Nat × List K)) (f : Nat) (k : K)
    (hnd : (fm.map Prod.fst).Nodup)
    (honly : ∀ p ∈ fm, k ∈ p.2 → p.1 = f) :
    k ∉ fmKeys (fmRemoveKey fm f k) := by
  induction fm with
  | nil => simp [fmRemoveKey, fmKeys]
  | cons p rest ih =>
    obtain ⟨g, ks⟩ := p
    simp only [List.map_cons, List.nodup_cons] at hnd
    have hrest : k ∉ fmKeys rest → True := fun _ => trivial
    by_cases h0 : f = g
    · subst h0
      have hnotrest : k ∉ fmKeys rest := by
        intro hk
        obtain ⟨q, hq, hkq⟩ := (mem_fmKeys_iff rest k).mp hk
        have := honly q (List.mem_cons_of_mem _ hq) hkq
        exact hnd.1 (this ▸ List.mem_map_of_mem Prod.fst hq)
      have hunf : fmRemoveKey ((f, ks) :: rest) f k
          = if (ks.filter (fun x => x ≠ k)).isEmpty then rest
            else (f, ks.filter (fun x => x ≠ k)) :: rest := by
        show (if f = f then _ else _) = _
        rw [if_pos rfl]
      by_cases hemp : (ks.filter (fun x => x ≠ k)).isEmpty
      · rw [hunf, if_pos hemp]
        exact hnotrest
      · rw [hunf, if_neg hemp]
        intro hk
        rw [mem_fmKeys_iff] at hk
        obtain ⟨q, hq, hkq⟩ := hk
        rcases List.mem_cons.mp hq with hq1 | hq2
        · subst hq1
          simp at hkq
        · exact hnotrest ((mem_fmKeys_iff rest k).mpr ⟨q, hq2, hkq⟩)
    · have hunf : fmRemoveKey ((g, ks) :: rest) f k = (g, ks) :: fmRemoveKey rest f k := by
        show (if f = g then _ else _) = _
        rw [if_neg h0]
      rw [hunf]
      intro hk
      rw [mem_fmKeys_iff] at hk
      obtain ⟨q, hq, hkq⟩ := hk
      rcases List.mem_cons.mp hq with hq1 | hq2
      · subst hq1
        exact h0 (honly (g, ks) (List.mem_cons_self _ _) hkq).symm
      · refine ih hnd.2 (fun q0 hq0 hkq0 => honly q0 (List.mem_cons_of_mem _ hq0) hkq0) ?_
        exact (mem_fmKeys_iff _ k).mpr ⟨q, hq2, hkq⟩

end FreqMapLemmas

/-- C4: for the FIFO policy, put(k, v) when k is already present in the Store is
a no-op: the whole state (existing value, its expires_at, and the order
sequence) is left unchanged; consequently after put(a, "1"); put(a, "2") a live
get(a) returns "1". -/
theorem C4_fifo_duplicate_put_noop {K V : Type} [DecidableEq K]
    (s : FIFOCacheState K V) (now : Nat) (k : K) (v : V)
    (h : mapContains s.map k = true) :
    FIFO.put s now k v = s ∧
    (FIFO.get
      (FIFO.put (FIFO.put (⟨2, 10, [], []⟩ : FIFOCacheState Nat String) 0 1 "1") 1 1 "2")
      2 1).1 = some "1" := by
  constructor
  · unfold FIFO.put
    rw [if_pos h]
  · decide

/-- Witness for C4 at a concrete present key. -/
theorem C4_fifo_duplicate_put_noop_witness :
    FIFO.put (⟨2, 10, [(1, ⟨"1", 10⟩)], [1]⟩ : FIFOCacheState Nat String) 5 1 "2"
      = (⟨2, 10, [(1, ⟨"1", 10⟩)], [1]⟩ : FIFOCacheState Nat String) ∧
    (FIFO.get
      (FIFO.put (FIFO.put (⟨2, 10, [], []⟩ : FIFOCacheState Nat String) 0 1 "1") 1 1 "2")
      2 1).1 = some "1" :=
  C4_fifo_duplicate_put_noop (⟨2, 10, [(1, ⟨"1", 10⟩)], [1]⟩ : FIFOCacheState Nat String)
    5 1 "2" (by decide)

/-- C5: for the LFU policy, put(k, v) on a present, live key overwrites the
value and refreshes expires_at to now + ttl, while the entry's frequency and
the whole frequency index are left unchanged and no eviction occurs (the key
set and the store size are unchanged). -/
theorem C5_lfu_put_existing_frame {K V : Type} [DecidableEq K]
    (s : LFUCacheState K V) (now : Nat) (k : K) (v : V) (e : LFUEntry V)
    (hget : mapGet s.map k = some e) (hlive : now < e.expires_at) :
    LFU.put s now k v
      = { s with map := mapUpdate s.map k (fun e0 => ⟨v, now + s.ttl, e0.frequency⟩) } ∧
    mapGet (LFU.put s now k v).map k = some ⟨v, now + s.ttl, e.frequency⟩ ∧
    (LFU.put s now k v).freq_map = s.freq_map ∧
    mapKeys (LFU.put s now k v).map = mapKeys s.map ∧
    (LFU.put s now k v).map.length = s.map.length := by
  have hput : LFU.put s now k v
      = { s with map := mapUpdate s.map k (fun e0 => ⟨v, now + s.ttl, e0.frequency⟩) } := by
    unfold LFU.put
    rw [hget]
  refine ⟨hput, ?_, ?_, ?_, ?_⟩
  · rw [hput]
    show mapGet (mapUpdate s.map k _) k = _
    rw [mapGet_mapUpdate_self, hget]
    rfl
  · rw [hput]
  · rw [hput]
    exact mapKeys_mapUpdate s.map k _
  · rw [hput]
    exact length_mapUpdate s.map k _

/-- Witness for C5 at a concrete live key. -/
theorem C5_lfu_put_existing_frame_witness :
    LFU.put (⟨2, 10, [(1, ⟨7, 10, 3⟩)], [(3, [1])]⟩ : LFUCacheState Nat Nat) 5 1 8
      = { (⟨2, 10, [(1, ⟨7, 10, 3⟩)], [(3, [1])]⟩ : LFUCacheState Nat Nat) with
          map := mapUpdate [(1, ⟨7, 10, 3⟩)] 1 (fun e0 => ⟨8, 5 + 10, e0.frequency⟩) } ∧
    mapGet (LFU.put (⟨2, 10, [(1, ⟨7, 10, 3⟩)], [(3, [1])]⟩ : LFUCacheState Nat Nat) 5 1 8).map 1
      = some ⟨8, 5 + 10, 3⟩ ∧
    (LFU.put (⟨2, 10, [(1, ⟨7, 10, 3⟩)], [(3, [1])]⟩ : LFUCacheState Nat Nat) 5 1 8).freq_map
      = [(3, [1])] ∧
    mapKeys (LFU.put (⟨2, 10, [(1, ⟨7, 10, 3⟩)], [(3, [1])]⟩ : LFUCacheState Nat Nat) 5 1 8).map
      = mapKeys [(1, (⟨7, 10, 3⟩ : LFUEntry Nat))] ∧
    (LFU.put (⟨2, 10, [(1, ⟨7, 10, 3⟩)], [(3, [1])]⟩ : LFUCacheState Nat Nat) 5 1 8).map.length
      = [(1, (⟨7, 10, 3⟩ : LFUEntry Nat))].length :=
  C5_lfu_put_existing_frame (⟨2, 10, [(1, ⟨7, 10, 3⟩)], [(3, [1])]⟩ : LFUCacheState Nat Nat)
    5 1 8 ⟨7, 10, 3⟩ (by decide) (by decide)

/-- C6: for the LRU policy, put of a new key at capacity evicts the
least-recently-used key (the order-sequence tail) from both Store and Order
Index and installs the new key at the most-recently-used position; concretely,
on a capacity-2 cache, after put(a); put(b); get(a); put(c) with no expiry,
get(a) and get(c) return values and get(b) returns nothing. -/
theorem C6_lru_eviction {K V : Type} [DecidableEq K]
    (s : LRUCacheState K V) (now : Nat) (k oldest : K) (v : V) (rest : List K)
    (hnew : mapContains s.map k = false)
    (hfull : s.capacity ≤ s.order.length)
    (hsplit : s.order = rest ++ [oldest])
    (hne : oldest ≠ k) (hnotin : oldest ∉ rest) :
    (LRU.put s now k v).order = k :: rest ∧
    oldest ∉ (LRU.put s now k v).order ∧
    mapContains (LRU.put s now k v).map oldest = false ∧
    mapGet (LRU.put s now k v).map k = some ⟨v, now + s.ttl⟩ ∧
    ((LRU.get (LRU.put (LRU.get (LRU.put (LRU.put
        (⟨2, 100, [], []⟩ : LRUCacheState Nat Nat) 0 1 10) 1 2 20) 2 1).2 3 3 30) 4 1).1 = some 10 ∧
     (LRU.get (LRU.put (LRU.get (LRU.put (LRU.put
        (⟨2, 100, [], []⟩ : LRUCacheState Nat Nat) 0 1 10) 1 2 20) 2 1).2 3 3 30) 4 2).1 = none ∧
     (LRU.get (LRU.put (LRU.get (LRU.put (LRU.put
        (⟨2, 100, [], []⟩ : LRUCacheState Nat Nat) 0 1 10) 1 2 20) 2 1).2 3 3 30) 4 3).1 = some 30) := by
  have hfull2 : s.capacity ≤ (rest ++ [oldest]).length := hsplit ▸ hfull
  have hput : LRU.put s now k v
      = { s with map := mapInsert (mapRemove s.map oldest) k ⟨v, now + s.ttl⟩,
                 order := k :: rest } := by
    unfold LRU.put
    simp only [hnew, Bool.false_eq_true, if_false, hsplit, if_pos hfull2,
               List.getLast?_concat, List.dropLast_concat]
  refine ⟨?_, ?_, ?_, ?_, by decide, by decide, by decide⟩
  · rw [hput]
  · rw [hput]
    simp only [List.mem_cons]
    push_neg
    exact ⟨hne, fun h => hnotin h⟩
  · rw [hput]
    show mapContains (mapInsert (mapRemove s.map oldest) k _) oldest = false
    rw [mapContains_mapInsert_ne _ k oldest _ hne, mapContains_mapRemove_self]
  · rw [hput]
    exact mapGet_mapInsert_self _ k _

/-- Witness for C6 at a concrete full cache. -/
theorem C6_lru_eviction_witness :
    (LRU.put (⟨2, 100, [(10, ⟨1, 100⟩), (20, ⟨2, 101⟩)], [20, 10]⟩ : LRUCacheState Nat Nat)
      5 30 3).order = 30 :: [20] ∧
    10 ∉ (LRU.put (⟨2, 100, [(10, ⟨1, 100⟩), (20, ⟨2, 101⟩)], [20, 10]⟩ : LRUCacheState Nat Nat)
      5 30 3).order ∧
    mapContains (LRU.put (⟨2, 100, [(10, ⟨1, 100⟩), (20, ⟨2, 101⟩)], [20, 10]⟩ : LRUCacheState Nat Nat)
      5 30 3).map 10 = false ∧
    mapGet (LRU.put (⟨2, 100, [(10, ⟨1, 100⟩), (20, ⟨2, 101⟩)], [20, 10]⟩ : LRUCacheState Nat Nat)
      5 30 3).map 30 = some ⟨3, 5 + 100⟩ ∧
    ((LRU.get (LRU.put (LRU.get (LRU.put (LRU.put
        (⟨2, 100, [], []⟩ : LRUCacheState Nat Nat) 0 1 10) 1 2 20) 2 1).2 3 3 30) 4 1).1 = some 10 ∧
     (LRU.get (LRU.put (LRU.get (LRU.put (LRU.put
        (⟨2, 100, [], []⟩ : LRUCacheState Nat Nat) 0 1 10) 1 2 20) 2 1).2 3 3 30) 4 2).1 = none ∧
     (LRU.get (LRU.put (LRU.get (LRU.put (LRU.put
        (⟨2, 100, [], []⟩ : LRUCacheState Nat Nat) 0 1 10) 1 2 20) 2 1).2 3 3 30) 4 3).1 = some 30) :=
  C6_lru_eviction (⟨2, 100, [(10, ⟨1, 100⟩), (20, ⟨2, 101⟩)], [20, 10]⟩ : LRUCacheState Nat Nat)
    5 30 10 3 [20] (by decide) (by decide) (by decide) (by decide) (by decide)

/-- C8: for the FIFO policy, put of a new key at capacity evicts the
oldest-inserted key (the front of the insertion deque) from both Store and
Order Index and appends the new key; concretely, on a capacity-2 cache, after
put(a); put(b); put(c) with no expiry, contains(a) is false while contains(b)
and contains(c) are true. -/
theorem C8_fifo_eviction {K V : Type} [DecidableEq K]
    (s : FIFOCacheState K V) (now : Nat) (k oldest : K) (v : V) (rest : List K)
    (hnew : mapContains s.map k = false)
    (hfull : s.capacity ≤ s.order.length)
    (hsplit : s.order = oldest :: rest)
    (hne : oldest ≠ k) (hnotin : oldest ∉ rest) :
    (FIFO.put s now k v).order = rest ++ [k] ∧
    oldest ∉ (FIFO.put s now k v).order ∧
    mapContains (FIFO.put s now k v).map oldest = false ∧
    mapGet (FIFO.put s now k v).map k = some ⟨v, now + s.ttl⟩ ∧
    (FIFO.contains (FIFO.put (FIFO.put (FIFO.put
        (⟨2, 100, [], []⟩ : FIFOCacheState Nat Nat) 0 1 10) 1 2 20) 2 3 30) 1 = false ∧
     FIFO.contains (FIFO.put (FIFO.put (FIFO.put
        (⟨2, 100, [], []⟩ : FIFOCacheState Nat Nat) 0 1 10) 1 2 20) 2 3 30) 2 = true ∧
     FIFO.contains (FIFO.put (FIFO.put (FIFO.put
        (⟨2, 100, [], []⟩ : FIFOCacheState Nat Nat) 0 1 10) 1 2 20) 2 3 30) 3 = true) := by
  have hfull2 : s.capacity ≤ (oldest :: rest).length := hsplit ▸ hfull
  have hput : FIFO.put s now k v
      = { s with map := mapInsert (mapRemove s.map oldest) k ⟨v, now + s.ttl⟩,
                 order := rest ++ [k] } := by
    unfold FIFO.put
    simp only [hnew, Bool.false_eq_true, if_false, hsplit, if_pos hfull2]
  refine ⟨?_, ?_, ?_, ?_, by decide, by decide, by decide⟩
  · rw [hput]
  · rw [hput]
    simp only [List.mem_append, List.mem_singleton]
    push_neg
    exact ⟨fun h => hnotin h, hne⟩
  · rw [hput]
    show mapContains (mapInsert (mapRemove s.map oldest) k _) oldest = false
    rw [mapContains_mapInsert_ne _ k oldest _ hne, mapContains_mapRemove_self]
  · rw [hput]
    exact mapGet_mapInsert_self _ k _

/-- Witness for C8 at a concrete full cache. -/
theorem C8_fifo_eviction_witness :
    (FIFO.put (⟨2, 100, [(10, ⟨1, 100⟩), (20, ⟨2, 101⟩)], [10, 20]⟩ : FIFOCacheState Nat Nat)
      5 30 3).order = [20] ++ [30] ∧
    10 ∉ (FIFO.put (⟨2, 100, [(10, ⟨1, 100⟩), (20, ⟨2, 101⟩)], [10, 20]⟩ : FIFOCacheState Nat Nat)
      5 30 3).order ∧
    mapContains (FIFO.put (⟨2, 100, [(10, ⟨1, 100⟩), (20, ⟨2, 101⟩)], [10, 20]⟩ : FIFOCacheState Nat Nat)
      5 30 3).map 10 = false ∧
    mapGet (FIFO.put (⟨2, 100, [(10, ⟨1, 100⟩), (20, ⟨2, 101⟩)], [10, 20]⟩ : FIFOCacheState Nat Nat)
      5 30 3).map 30 = some ⟨3, 5 + 100⟩ ∧
    (FIFO.contains (FIFO.put (FIFO.put (FIFO.put
        (⟨2, 100, [], []⟩ : FIFOCacheState Nat Nat) 0 1 10) 1 2 20) 2 3 30) 1 = false ∧
     FIFO.contains (FIFO.put (FIFO.put (FIFO.put
        (⟨2, 100, [], []⟩ : FIFOCacheState Nat Nat) 0 1 10) 1 2 20) 2 3 30) 2 = true ∧
     FIFO.contains (FIFO.put (FIFO.put (FIFO.put
        (⟨2, 100, [], []⟩ : FIFOCacheState Nat Nat) 0 1 10) 1 2 20) 2 3 30) 3 = true) :=
  C8_fifo_eviction (⟨2, 100, [(10, ⟨1, 100⟩), (20, ⟨2, 101⟩)], [10, 20]⟩ : FIFOCacheState Nat Nat)
    5 30 10 3 [20] (by decide) (by decide) (by decide) (by decide) (by decide)

section GetUnfolding

variable {K V : Type} [DecidableEq K]

theorem lruGet_eq_of_mapGet_some (s : LRUCacheState K V) (now : Nat) (k : K)
    (e : CacheEntry V) (hget : mapGet s.map k = some e) :
    LRU.get s now k
      = if now < e.expires_at then
          (some e.value, { s with order := k :: s.order.filter (fun x => x ≠ k) })
        else
          (none, { s with map := mapRemove s.map k,
                          order := s.order.filter (fun x => x ≠ k) }) := by
  unfold LRU.get
  rw [hget]

theorem fifoGet_eq_of_mapGet_some (s : FIFOCacheState K V) (now : Nat) (k : K)
    (e : CacheEntry V) (hget : mapGet s.map k = some e) :
    FIFO.get s now k
      = if now < e.expires_at then (some e.value, s)
        else
          (none, { s with map := mapRemove s.map k,
                          order := s.order.filter (fun x => x ≠ k) }) := by
  unfold FIFO.get
  rw [hget]

theorem lfuGet_eq_of_mapGet_some (s : LFUCacheState K V) (now : Nat) (k : K)
    (e : LFUEntry V) (hget : mapGet s.map k = some e) :
    LFU.get s now k
      = if e.expires_at ≤ now then
          (none, { s with map := mapRemove s.map k,
                          freq_map := fmRemoveKey s.freq_map e.frequency k })
        else
          (some e.value,
           { s with
              map := mapUpdate s.map k (fun e0 => ⟨e0.value, e0.expires_at, e0.frequency + 1⟩),
              freq_map := fmInsert (fmRemoveKey s.freq_map e.frequency k)
                            (e.frequency + 1) k }) := by
  unfold LFU.get
  rw [hget]

theorem lruFileGet_eq_of_mapGet_some (s : LRUCacheState K V) (now : Nat) (k : K)
    (e : CacheEntry V) (hget : mapGet s.map k = some e) :
    LruCacheFile.get s now k
      = if now < e.expires_at then
          (some e.value,
           { s with map := mapUpdate s.map k (fun e0 => ⟨e0.value, now + s.ttl⟩),
                    order := k :: s.order.filter (fun x => x ≠ k) })
        else
          (none, { s with map := mapRemove s.map k,
                          order := s.order.filter (fun x => x ≠ k) }) := by
  unfold LruCacheFile.get
  rw [hget]

theorem mapGet_eq_none_of_not_contains {E : Type} (m : List (K × E)) (k : K)
    (h : mapContains m k = false) : mapGet m k = none := by
  cases hg : mapGet m k with
  | none => rfl
  | some e =>
    rw [mapContains_eq_isSome, hg] at h
    simp at h

end GetUnfolding

/-- C7: for the LFU policy, the frequency counter starts at 1 on first
insertion, is incremented by exactly 1 on every successful live get (moving
the key from its old frequency bucket to the new one), and put of a new key at
capacity evicts the first key of the bucket with the smallest frequency
present; concretely, on a capacity-2 cache, after put(a); put(b); get(a);
get(a); put(c) with no expiry, get(b) returns nothing while get(a) and get(c)
return values. -/
theorem C7_lfu_frequency_model {K V : Type} [DecidableEq K] :
    (∀ (s : LFUCacheState K V) (now : Nat) (k : K) (v : V),
        mapContains s.map k = false → s.map.length < s.capacity →
        mapGet (LFU.put s now k v).map k = some ⟨v, now + s.ttl, 1⟩ ∧
        k ∈ fmBucket (LFU.put s now k v).freq_map 1) ∧
    (∀ (s : LFUCacheState K V) (now : Nat) (k : K) (e : LFUEntry V),
        mapGet s.map k = some e → now < e.expires_at →
        (s.freq_map.map Prod.fst).Nodup →
        (LFU.get s now k).1 = some e.value ∧
        mapGet (LFU.get s now k).2.map k = some ⟨e.value, e.expires_at, e.frequency + 1⟩ ∧
        k ∈ fmBucket (LFU.get s now k).2.freq_map (e.frequency + 1) ∧
        k ∉ fmBucket (LFU.get s now k).2.freq_map e.frequency) ∧
    (∀ (s : LFUCacheState K V) (now : Nat) (k : K) (v : V) (f0 : Nat) (k0 : K)
        (ks : List K) (fmrest : List (Nat × List K)),
        mapContains s.map k = false → s.capacity ≤ s.map.length →
        s.freq_map = (f0, k0 :: ks) :: fmrest →
        (∀ p ∈ fmrest, f0 ≤ p.1) → k0 ≠ k →
        k0 ∈ fmBucket s.freq_map f0 ∧
        (∀ p ∈ s.freq_map, f0 ≤ p.1) ∧
        mapContains (LFU.put s now k v).map k0 = false ∧
        mapContains (LFU.put s now k v).map k = true) ∧
    ((LFU.get (LFU.put (LFU.get (LFU.get (LFU.put (LFU.put
        (⟨2, 100, [], []⟩ : LFUCacheState Nat Nat) 0 1 10) 1 2 20) 2 1).2 3 1).2 4 3 30)
        5 2).1 = none ∧
     (LFU.get (LFU.put (LFU.get (LFU.get (LFU.put (LFU.put
        (⟨2, 100, [], []⟩ : LFUCacheState Nat Nat) 0 1 10) 1 2 20) 2 1).2 3 1).2 4 3 30)
        5 1).1 = some 10 ∧
     (LFU.get (LFU.put (LFU.get (LFU.get (LFU.put (LFU.put
        (⟨2, 100, [], []⟩ : LFUCacheState Nat Nat) 0 1 10) 1 2 20) 2 1).2 3 1).2 4 3 30)
        5 3).1 = some 30) := by
  refine ⟨?_, ?_, ?_, by decide, by decide, by decide⟩
  · intro s now k v hnew hroom
    have hnone : mapGet s.map k = none := mapGet_eq_none_of_not_contains s.map k hnew
    have hput : LFU.put s now k v
        = { s with map := mapInsert s.map k ⟨v, now + s.ttl, 1⟩,
                   freq_map := fmInsert s.freq_map 1 k } := by
      unfold LFU.put
      rw [hnone, if_neg (Nat.not_le.mpr hroom)]
    rw [hput]
    exact ⟨mapGet_mapInsert_self _ k _, mem_fmBucket_fmInsert_self _ 1 k⟩
  · intro s now k e hget hlive hnd
    have hr : LFU.get s now k
        = (some e.value,
           { s with
              map := mapUpdate s.map k (fun e0 => ⟨e0.value, e0.expires_at, e0.frequency + 1⟩),
              freq_map := fmInsert (fmRemoveKey s.freq_map e.frequency k)
                            (e.frequency + 1) k }) := by
      rw [lfuGet_eq_of_mapGet_some s now k e hget, if_neg (Nat.not_le.mpr hlive)]
    rw [hr]
    refine ⟨rfl, ?_, ?_, ?_⟩
    · show mapGet (mapUpdate s.map k _) k = _
      rw [mapGet_mapUpdate_self, hget]
      rfl
    · exact mem_fmBucket_fmInsert_self _ _ k
    · show k ∉ fmBucket (fmInsert (fmRemoveKey s.freq_map e.frequency k)
          (e.frequency + 1) k) e.frequency
      rw [fmBucket_fmInsert_ne _ (e.frequency + 1) e.frequency k
            (Nat.ne_of_lt (Nat.lt_succ_self e.frequency))]
      exact not_mem_fmBucket_fmRemoveKey_self s.freq_map e.frequency k hnd
  · intro s now k v f0 k0 ks fmrest hnew hfull hfm hmin hne
    have hnone : mapGet s.map k = none := mapGet_eq_none_of_not_contains s.map k hnew
    have hput : LFU.put s now k v
        = { s with map := mapInsert (mapRemove s.map k0) k ⟨v, now + s.ttl, 1⟩,
                   freq_map := fmInsert (fmRemoveKey s.freq_map f0 k0) 1 k } := by
      unfold LFU.put
      rw [hnone, hfm, if_pos hfull]
      rfl
    refine ⟨?_, ?_, ?_, ?_⟩
    · rw [hfm]
      show k0 ∈ (if f0 = f0 then k0 :: ks else fmBucket fmrest f0)
      rw [if_pos rfl]
      exact List.mem_cons_self k0 ks
    · intro p hp
      rw [hfm] at hp
      rcases List.mem_cons.mp hp with h1 | h2
      · rw [h1]
      · exact hmin p h2
    · rw [hput]
      show mapContains (mapInsert (mapRemove s.map k0) k _) k0 = false
      rw [mapContains_mapInsert_ne _ k k0 _ hne, mapContains_mapRemove_self]
    · rw [hput]
      exact mapContains_mapInsert_self _ k _

/-- Witness for C7, one concrete instantiation per hypothesis-bearing part:
first insertion at frequency 1, live-get increment from a singleton state, and
minimum-bucket eviction at capacity 1. -/
theorem C7_lfu_frequency_model_witness :
    mapGet (LFU.put (⟨2, 10, [], []⟩ : LFUCacheState Nat Nat) 0 1 5).map 1
      = some ⟨5, 0 + 10, 1⟩ ∧
    mapGet (LFU.get (⟨2, 10, [(1, ⟨5, 10, 1⟩)], [(1, [1])]⟩ : LFUCacheState Nat Nat) 3 1).2.map 1
      = some ⟨5, 10, 1 + 1⟩ ∧
    mapContains (LFU.put (⟨1, 10, [(1, ⟨5, 10, 2⟩)], [(2, [1])]⟩ : LFUCacheState Nat Nat) 3 2 6).map 1
      = false :=
  ⟨(C7_lfu_frequency_model.1 (⟨2, 10, [], []⟩ : LFUCacheState Nat Nat) 0 1 5
      (by decide) (by decide)).1,
   (C7_lfu_frequency_model.2.1 (⟨2, 10, [(1, ⟨5, 10, 1⟩)], [(1, [1])]⟩ : LFUCacheState Nat Nat)
      3 1 ⟨5, 10, 1⟩ (by decide) (by decide) (by decide)).2.1,
   (C7_lfu_frequency_model.2.2.1 (⟨1, 10, [(1, ⟨5, 10, 2⟩)], [(2, [1])]⟩ : LFUCacheState Nat Nat)
      3 2 6 2 1 [] [] (by decide) (by decide) (by decide) (by decide) (by decide)).2.2.1⟩

/-- C9: for every policy, get(k) returns nothing exactly when k is absent from
the Store or its entry's expires_at is at or before now; in the expired case
the get call itself removes the entry from the Store and from the Order Index
(recency/insertion deque, or the entry's frequency bucket), so a subsequent
len() no longer counts it. -/
theorem C9_get_none_iff_absent_or_expired {K V : Type} [DecidableEq K] :
    (∀ (s : LRUCacheState K V) (now : Nat) (k : K),
        (LRU.get s now k).1 = none ↔
          (mapGet s.map k = none ∨ ∃ e, mapGet s.map k = some e ∧ e.expires_at ≤ now)) ∧
    (∀ (s : FIFOCacheState K V) (now : Nat) (k : K),
        (FIFO.get s now k).1 = none ↔
          (mapGet s.map k = none ∨ ∃ e, mapGet s.map k = some e ∧ e.expires_at ≤ now)) ∧
    (∀ (s : LFUCacheState K V) (now : Nat) (k : K),
        (LFU.get s now k).1 = none ↔
          (mapGet s.map k = none ∨ ∃ e, mapGet s.map k = some e ∧ e.expires_at ≤ now)) ∧
    (∀ (s : LRUCacheState K V) (now : Nat) (k : K) (e : CacheEntry V),
        mapGet s.map k = some e → e.expires_at ≤ now →
        mapContains (LRU.get s now k).2.map k = false ∧
        k ∉ (LRU.get s now k).2.order ∧
        (LRU.get s now k).2.map.length < s.map.length) ∧
    (∀ (s : FIFOCacheState K V) (now : Nat) (k : K) (e : CacheEntry V),
        mapGet s.map k = some e → e.expires_at ≤ now →
        mapContains (FIFO.get s now k).2.map k = false ∧
        k ∉ (FIFO.get s now k).2.order ∧
        (FIFO.get s now k).2.map.length < s.map.length) ∧
    (∀ (s : LFUCacheState K V) (now : Nat) (k : K) (e : LFUEntry V),
        mapGet s.map k = some e → e.expires_at ≤ now →
        (s.freq_map.map Prod.fst).Nodup →
        (∀ p ∈ s.freq_map, k ∈ p.2 → p.1 = e.frequency) →
        mapContains (LFU.get s now k).2.map k = false ∧
        k ∉ fmKeys (LFU.get s now k).2.freq_map ∧
        (LFU.get s now k).2.map.length < s.map.length) := by
  refine ⟨?_, ?_, ?_, ?_, ?_, ?_⟩
  · intro s now k
    cases hg : mapGet s.map k with
    | none =>
      unfold LRU.get
      rw [hg]
      simp
    | some e =>
      rw [lruGet_eq_of_mapGet_some s now k e hg]
      by_cases hl : now < e.expires_at
      · rw [if_pos hl]
        simp [hg, Nat.not_le.mpr hl]
      · rw [if_neg hl]
        simp [hg, Nat.not_lt.mp hl]
  · intro s now k
    cases hg : mapGet s.map k with
    | none =>
      unfold FIFO.get
      rw [hg]
      simp
    | some e =>
      rw [fifoGet_eq_of_mapGet_some s now k e hg]
      by_cases hl : now < e.expires_at
      · rw [if_pos hl]
        simp [hg, Nat.not_le.mpr hl]
      · rw [if_neg hl]
        simp [hg, Nat.not_lt.mp hl]
  · intro s now k
    cases hg : mapGet s.map k with
    | none =>
      unfold LFU.get
      rw [hg]
      simp
    | some e =>
      rw [lfuGet_eq_of_mapGet_some s now k e hg]
      by_cases hl : e.expires_at ≤ now
      · rw [if_pos hl]
        simp [hg, hl]
      · rw [if_neg hl]
        simp [hg, hl]
  · intro s now k e hget hexp
    have hr : LRU.get s now k
        = (none, { s with map := mapRemove s.map k,
                          order := s.order.filter (fun x => x ≠ k) }) := by
      rw [lruGet_eq_of_mapGet_some s now k e hget, if_neg (Nat.not_lt.mpr hexp)]
    rw [hr]
    refine ⟨mapContains_mapRemove_self s.map k, ?_, length_mapRemove_lt s.map k e hget⟩
    simp [List.mem_filter]
  · intro s now k e hget hexp
    have hr : FIFO.get s now k
        = (none, { s with map := mapRemove s.map k,
                          order := s.order.filter (fun x => x ≠ k) }) := by
      rw [fifoGet_eq_of_mapGet_some s now k e hget, if_neg (Nat.not_lt.mpr hexp)]
    rw [hr]
    refine ⟨mapContains_mapRemove_self s.map k, ?_, length_mapRemove_lt s.map k e hget⟩
    simp [List.mem_filter]
  · intro s now k e hget hexp hnd honly
    have hr : LFU.get s now k
        = (none, { s with map := mapRemove s.map k,
                          freq_map := fmRemoveKey s.freq_map e.frequency k }) := by
      rw [lfuGet_eq_of_mapGet_some s now k e hget, if_pos hexp]
    rw [hr]
    exact ⟨mapContains_mapRemove_self s.map k,
           not_mem_fmKeys_fmRemoveKey s.freq_map e.frequency k hnd honly,
           length_mapRemove_lt s.map k e hget⟩

/-- Witness for C9: a concrete expired entry under each policy. -/
theorem C9_get_none_iff_absent_or_expired_witness :
    mapContains (LRU.get (⟨2, 10, [(1, ⟨7, 10⟩)], [1]⟩ : LRUCacheState Nat Nat) 150 1).2.map 1
      = false ∧
    mapContains (FIFO.get (⟨2, 10, [(1, ⟨7, 10⟩)], [1]⟩ : FIFOCacheState Nat Nat) 150 1).2.map 1
      = false ∧
    mapContains (LFU.get (⟨2, 10, [(1, ⟨7, 10, 1⟩)], [(1, [1])]⟩ : LFUCacheState Nat Nat) 150 1).2.map 1
      = false ∧
    1 ∉ fmKeys (LFU.get (⟨2, 10, [(1, ⟨7, 10, 1⟩)], [(1, [1])]⟩ : LFUCacheState Nat Nat) 150 1).2.freq_map :=
  ⟨(C9_get_none_iff_absent_or_expired.2.2.2.1
      (⟨2, 10, [(1, ⟨7, 10⟩)], [1]⟩ : LRUCacheState Nat Nat) 150 1 ⟨7, 10⟩
      (by decide) (by decide)).1,
   (C9_get_none_iff_absent_or_expired.2.2.2.2.1
      (⟨2, 10, [(1, ⟨7, 10⟩)], [1]⟩ : FIFOCacheState Nat Nat) 150 1 ⟨7, 10⟩
      (by decide) (by decide)).1,
   (C9_get_none_iff_absent_or_expired.2.2.2.2.2
      (⟨2, 10, [(1, ⟨7, 10, 1⟩)], [(1, [1])]⟩ : LFUCacheState Nat Nat) 150 1 ⟨7, 10, 1⟩
      (by decide) (by decide) (by decide) (by decide)).1,
   (C9_get_none_iff_absent_or_expired.2.2.2.2.2
      (⟨2, 10, [(1, ⟨7, 10, 1⟩)], [(1, [1])]⟩ : LFUCacheState Nat Nat) 150 1 ⟨7, 10, 1⟩
      (by decide) (by decide) (by decide) (by decide)).2.1⟩

/-- C10: for every policy, contains only reads the Store (the Rust bodies lock
the store, call contains_key and return, so the embedding is a pure observer
that leaves the state untouched and removes nothing); it returns true exactly
when the key has a binding in the Store, including when that binding is
already expired — hence contains(k) = true and get(k) = none can hold for the
same key at the same instant. -/
theorem C10_contains_pure_observer {K V : Type} [DecidableEq K] :
    (∀ (s : LRUCacheState K V) (k : K),
        LRU.contains s k = true ↔ ∃ e, mapGet s.map k = some e) ∧
    (∀ (s : FIFOCacheState K V) (k : K),
        FIFO.contains s k = true ↔ ∃ e, mapGet s.map k = some e) ∧
    (∀ (s : LFUCacheState K V) (k : K),
        LFU.contains s k = true ↔ ∃ e, mapGet s.map k = some e) ∧
    (∀ (s : LRUCacheState K V) (now : Nat) (k : K) (e : CacheEntry V),
        mapGet s.map k = some e → e.expires_at ≤ now →
        LRU.contains s k = true ∧ (LRU.get s now k).1 = none) ∧
    (∀ (s : FIFOCacheState K V) (now : Nat) (k : K) (e : CacheEntry V),
        mapGet s.map k = some e → e.expires_at ≤ now →
        FIFO.contains s k = true ∧ (FIFO.get s now k).1 = none) ∧
    (∀ (s : LFUCacheState K V) (now : Nat) (k : K) (e : LFUEntry V),
        mapGet s.map k = some e → e.expires_at ≤ now →
        LFU.contains s k = true ∧ (LFU.get s now k).1 = none) := by
  refine ⟨?_, ?_, ?_, ?_, ?_, ?_⟩
  · intro s k
    unfold LRU.contains
    rw [mapContains_eq_isSome]
    exact Option.isSome_iff_exists
  · intro s k
    unfold FIFO.contains
    rw [mapContains_eq_isSome]
    exact Option.isSome_iff_exists
  · intro s k
    unfold LFU.contains
    rw [mapContains_eq_isSome]
    exact Option.isSome_iff_exists
  · intro s now k e hget hexp
    constructor
    · unfold LRU.contains
      rw [mapContains_eq_isSome, hget]
      rfl
    · rw [lruGet_eq_of_mapGet_some s now k e hget, if_neg (Nat.not_lt.mpr hexp)]
  · intro s now k e hget hexp
    constructor
    · unfold FIFO.contains
      rw [mapContains_eq_isSome, hget]
      rfl
    · rw [fifoGet_eq_of_mapGet_some s now k e hget, if_neg (Nat.not_lt.mpr hexp)]
  · intro s now k e hget hexp
    constructor
    · unfold LFU.contains
      rw [mapContains_eq_isSome, hget]
      rfl
    · rw [lfuGet_eq_of_mapGet_some s now k e hget, if_pos hexp]

/-- Witness for C10: an expired entry that contains still reports, under each
policy, while get on it returns nothing. -/
theorem C10_contains_pure_observer_witness :
    (LRU.contains (⟨2, 10, [(1, ⟨7, 10⟩)], [1]⟩ : LRUCacheState Nat Nat) 1 = true ∧
     (LRU.get (⟨2, 10, [(1, ⟨7, 10⟩)], [1]⟩ : LRUCacheState Nat Nat) 150 1).1 = none) ∧
    (FIFO.contains (⟨2, 10, [(1, ⟨7, 10⟩)], [1]⟩ : FIFOCacheState Nat Nat) 1 = true ∧
     (FIFO.get (⟨2, 10, [(1, ⟨7, 10⟩)], [1]⟩ : FIFOCacheState Nat Nat) 150 1).1 = none) ∧
    (LFU.contains (⟨2, 10, [(1, ⟨7, 10, 1⟩)], [(1, [1])]⟩ : LFUCacheState Nat Nat) 1 = true ∧
     (LFU.get (⟨2, 10, [(1, ⟨7, 10, 1⟩)], [(1, [1])]⟩ : LFUCacheState Nat Nat) 150 1).1 = none) :=
  ⟨C10_contains_pure_observer.2.2.2.1
      (⟨2, 10, [(1, ⟨7, 10⟩)], [1]⟩ : LRUCacheState Nat Nat) 150 1 ⟨7, 10⟩
      (by decide) (by decide),
   C10_contains_pure_observer.2.2.2.2.1
      (⟨2, 10, [(1, ⟨7, 10⟩)], [1]⟩ : FIFOCacheState Nat Nat) 150 1 ⟨7, 10⟩
      (by decide) (by decide),
   C10_contains_pure_observer.2.2.2.2.2
      (⟨2, 10, [(1, ⟨7, 10, 1⟩)], [(1, [1])]⟩ : LFUCacheState Nat Nat) 150 1 ⟨7, 10, 1⟩
      (by decide) (by decide)⟩

/-- C3 counterexample: in the strategy LRU engine (src/strategy/lru.rs, the
one the Easycache facade runs), put key 1 at t=0 with ttl 10 (deadline 10),
then get at t=5: the claim predicts expires_at becomes 5 + 10 = 15 and that a
get at t=11 < 15 still returns the value; the code leaves expires_at at 10 and
the get at t=11 returns nothing. -/
theorem C3_lru_get_no_refresh_counterexample :
    (LRU.get (LRU.put (⟨2, 10, [], []⟩ : LRUCacheState Nat Nat) 0 1 7) 5 1).1 = some 7 ∧
    (mapGet (LRU.get (LRU.put (⟨2, 10, [], []⟩ : LRUCacheState Nat Nat) 0 1 7) 5 1).2.map 1).map
        CacheEntry.expires_at = some 10 ∧
    (LRU.get (LRU.get (LRU.put (⟨2, 10, [], []⟩ : LRUCacheState Nat Nat) 0 1 7) 5 1).2 11 1).1
      = none := by
  decide

/-- C3 amended: in the strategy LRU engine, get(k) on a live key moves k to
the most-recently-used position and returns the stored value but leaves the
store — in particular expires_at — unchanged, so the entry still dies at its
original deadline; the sliding-TTL refresh to now + ttl is implemented only by
the get of the standalone LRUCache in src/lru_cache.rs. -/
theorem C3_lru_get_live_behavior {K V : Type} [DecidableEq K]
    (s : LRUCacheState K V) (now : Nat) (k : K) (e : CacheEntry V)
    (hget : mapGet s.map k = some e) (hlive : now < e.expires_at) :
    (LRU.get s now k).1 = some e.value ∧
    (LRU.get s now k).2.order = k :: s.order.filter (fun x => x ≠ k) ∧
    (LRU.get s now k).2.map = s.map ∧
    (LruCacheFile.get s now k).1 = some e.value ∧
    mapGet (LruCacheFile.get s now k).2.map k = some ⟨e.value, now + s.ttl⟩ ∧
    (LruCacheFile.get s now k).2.order = k :: s.order.filter (fun x => x ≠ k) := by
  have hr : LRU.get s now k
      = (some e.value, { s with order := k :: s.order.filter (fun x => x ≠ k) }) := by
    rw [lruGet_eq_of_mapGet_some s now k e hget, if_pos hlive]
  have hrf : LruCacheFile.get s now k
      = (some e.value,
         { s with map := mapUpdate s.map k (fun e0 => ⟨e0.value, now + s.ttl⟩),
                  order := k :: s.order.filter (fun x => x ≠ k) }) := by
    rw [lruFileGet_eq_of_mapGet_some s now k e hget, if_pos hlive]
  rw [hr, hrf]
  refine ⟨rfl, rfl, rfl, rfl, ?_, rfl⟩
  show mapGet (mapUpdate s.map k _) k = _
  rw [mapGet_mapUpdate_self, hget]
  rfl

/-- Witness for the amended C3 at a concrete live entry. -/
theorem C3_lru_get_live_behavior_witness :
    (LRU.get (⟨2, 10, [(1, ⟨7, 10⟩)], [1]⟩ : LRUCacheState Nat Nat) 5 1).1 = some 7 ∧
    (LRU.get (⟨2, 10, [(1, ⟨7, 10⟩)], [1]⟩ : LRUCacheState Nat Nat) 5 1).2.order
      = 1 :: [1].filter (fun x => x ≠ 1) ∧
    (LRU.get (⟨2, 10, [(1, ⟨7, 10⟩)], [1]⟩ : LRUCacheState Nat Nat) 5 1).2.map
      = [(1, ⟨7, 10⟩)] ∧
    (LruCacheFile.get (⟨2, 10, [(1, ⟨7, 10⟩)], [1]⟩ : LRUCacheState Nat Nat) 5 1).1 = some 7 ∧
    mapGet (LruCacheFile.get (⟨2, 10, [(1, ⟨7, 10⟩)], [1]⟩ : LRUCacheState Nat Nat) 5 1).2.map 1
      = some ⟨7, 5 + 10⟩ ∧
    (LruCacheFile.get (⟨2, 10, [(1, ⟨7, 10⟩)], [1]⟩ : LRUCacheState Nat Nat) 5 1).2.order
      = 1 :: [1].filter (fun x => x ≠ 1) :=
  C3_lru_get_live_behavior (⟨2, 10, [(1, ⟨7, 10⟩)], [1]⟩ : LRUCacheState Nat Nat) 5 1 ⟨7, 10⟩
    (by decide) (by decide)

/-- C1: the bijection invariant fails on reachable LFU states. Put key 1 at
t=0 with ttl 10, then run one tick of the trait-level cleaner (the one
LFUCache::start_cleaner spawns and the facade schedules) at t=10: the expired
entry is retained out of the Store, but its key is still represented in the
frequency index, so the two key sets differ. -/
theorem C1_lfu_trait_sweep_breaks_bijection :
    mapKeys (LFU.sweepTrait (LFU.put (⟨2, 10, [], []⟩ : LFUCacheState Nat Nat) 0 1 100) 10).map
      = [] ∧
    fmKeys (LFU.sweepTrait (LFU.put (⟨2, 10, [], []⟩ : LFUCacheState Nat Nat) 0 1 100) 10).freq_map
      = [1] := by
  decide

/-- C2: the capacity invariant fails on a reachable LFU state. On a capacity-1
cache: put key 1 at t=0 (ttl 10); trait-cleaner tick at t=10 leaves the stale
key 1 in frequency bucket 1 (the C1 bug); put key 2 at t=11 joins it in that
bucket; put key 3 at t=12 evicts the stale key 1 from the bucket — removing
nothing from the Store — and inserts key 3, so len() = 2 > capacity = 1 after
a public put returns. -/
theorem C2_lfu_capacity_exceeded :
    (LFU.put
      (LFU.put
        (LFU.sweepTrait (LFU.put (⟨1, 10, [], []⟩ : LFUCacheState Nat Nat) 0 1 100) 10)
        11 2 200)
      12 3 300).capacity
    < LFU.len
        (LFU.put
          (LFU.put
            (LFU.sweepTrait (LFU.put (⟨1, 10, [], []⟩ : LFUCacheState Nat Nat) 0 1 100) 10)
            11 2 200)
          12 3 300) := by
  decide
